import Mathlib

/-!
Verification of the group-lifecycle tracker of `src/video_processor.py`
(class `VideoProcessor`).

The per-frame pipeline of `process_single_frame` is embedded as pure
functions over explicit state:

* a `Detection` is one tracked person in one frame: a 2D anchor position
  (`BOTTOM_CENTER` of the bounding box in the source) plus an optional
  tracker id (`detections.tracker_id` entries, absent when tracking drops
  the object);
* the clusterer (`sklearn.cluster.DBSCAN(eps=75, min_samples=3)` in the
  source, an external library) is a parameter of type `Clusterer`: a
  function from the frame's anchor points to per-point integer labels,
  `-1` denoting noise;
* `self.active_groups` (a Python dict from cluster label to the group
  record `{"start_frame", "last_seen_frame", "members"}`, later extended
  with `'last_log'`) is an insertion-ordered association list `Active`;
* each CSV row written by `_log_group_event` is a `LogEntry`; the
  `saved_frame_path` column is a `Marker`: a snapshot path
  `frame_{i}_group_{g}.jpg`, the literal `"disappeared"`, or the literal
  `"video_end"`;
* `process_video_and_yield_frames` is `runVideo`: it processes the frames
  actually read from the capture (`frames`), computes a progress value
  `frame_index / total_frames` per yielded frame where `T` is the frame
  count reported by the capture's metadata (`CAP_PROP_FRAME_COUNT`), and
  finally runs `_log_final_dwell_times T`.  Division by zero, which in
  Python raises `ZeroDivisionError`, is modelled by `Option ℚ` = `none`.

Instrumentation: `Acc.created` records, faithfully to the branch
`if group_id not in self.active_groups`, each (group key, creation frame)
pair; it is derived bookkeeping used only to state theorems.

Two modelling notes.  The source iterates `set(self.active_groups.keys())
- current_groups_in_frame` in Python set order; the model emits the same
termination rows in the table's insertion order — all properties proved
here are insensitive to the relative order of one frame's termination
rows.  The guard `if mem.tracker_id` on the `member_ids` comprehension is
modelled as presence of the optional tracker id.
-/

namespace GroupAnalysis

/-- One per-frame person detection: 2D anchor position and optional
stable tracker identity. -/
structure Detection where
  pos : Int × Int
  tracker_id : Option Nat
deriving Repr, DecidableEq, Inhabited

/-- The `saved_frame_path` column of a log row: a snapshot image path
(`frame_{frame_index}_group_{group_id}.jpg`), `"disappeared"`, or
`"video_end"`. -/
inductive Marker where
  | snapshot (frame_index : Nat) (group_id : Int)
  | disappeared
  | video_end
deriving Repr, DecidableEq

/-- One CSV row as written by `_log_group_event`; `member_ids` is kept as
the sorted list of ids that the source joins with `"-"`. -/
structure LogEntry where
  frame : Nat
  group_id : Int
  member_count : Nat
  member_ids : List Nat
  dwell_time_frames : Int
  saved_frame_path : Marker
deriving Repr, DecidableEq

/-- The per-group record stored in `self.active_groups`:
`{"start_frame": fi, "last_seen_frame": fi, "members": []}`, plus the
`'last_log'` key added when a snapshot row is written.  The source never
writes `last_seen_frame` or `members` again after creation. -/
structure GroupData where
  start_frame : Nat
  last_seen_frame : Nat
  members : List Nat
  last_log : Option LogEntry
deriving Repr, DecidableEq

/-- `self.active_groups` as an insertion-ordered association list. -/
abbrev Active := List (Int × GroupData)

/-- The external clusterer: per-point integer labels (`-1` = noise). -/
abbrev Clusterer := List (Int × Int) → List Int

/-- Python dict lookup `active_groups[g]` / `g in active_groups`. -/
def lookupGroup : Active → Int → Option GroupData
  | [], _ => none
  | (k, d) :: rest, g => if k = g then some d else lookupGroup rest g

/-- `self.active_groups[group_id]['last_log'] = log_entry`. -/
def setLastLog : Active → Int → LogEntry → Active
  | [], _, _ => []
  | (k, d) :: rest, g, e =>
    if k = g then (k, { d with last_log := some e }) :: rest
    else (k, d) :: setLastLog rest g e

/-- Insertion into a sorted list, for Python's `sorted(member_ids)`. -/
def insertSorted (x : Nat) : List Nat → List Nat
  | [] => [x]
  | y :: ys => if x ≤ y then x :: y :: ys else y :: insertSorted x ys

/-- Python's `sorted` on a list of ids. -/
def sortNat (l : List Nat) : List Nat := l.foldr insertSorted []

/-- Appending one detection to the entry of its label inside the
defaultdict `grouped_detections` (insertion order preserved). -/
def addToGroups : List (Int × List Detection) → Int → Detection → List (Int × List Detection)
  | [], label, d => [(label, [d])]
  | (l, ds) :: rest, label, d =>
    if l = label then (l, ds ++ [d]) :: rest
    else (l, ds) :: addToGroups rest label d

/-- The loop `for i, label in enumerate(cluster_labels): if label != -1:
grouped_detections[label].append(detections[i])`. -/
def groupByLabel (pairs : List (Int × Detection)) : List (Int × List Detection) :=
  pairs.foldl (fun gs ld => if ld.1 = -1 then gs else addToGroups gs ld.1 ld.2) []

/-- `detections.get_anchors_coordinates(sv.Position.BOTTOM_CENTER)`: the
anchor points of all detections of the frame. -/
def pointsOf (dets : List Detection) : List (Int × Int) := dets.map (·.pos)

/-- The frame's clusters: `dbscan.fit_predict(points)` grouped by label,
noise excluded; guarded by `if len(detections) >= 3`. -/
def clustersOf (C : Clusterer) (dets : List Detection) : List (Int × List Detection) :=
  if 3 ≤ dets.length then groupByLabel ((C (pointsOf dets)).zip dets) else []

/-- State threaded through one frame: the active-group table, rows
appended to the log so far, and the (group key, frame) pairs for which
the creation branch ran. -/
structure Acc where
  active : Active
  rows : List LogEntry
  created : List (Int × Nat)
deriving Repr, DecidableEq

/-- The continuation log row built in the `frame_index % 30 == 0` branch:
`member_count = len(group_members)`, `member_ids` the sorted ids of the
members that have a tracker id, `dwell_time_frames = 0`. -/
def snapshotEntry (fi : Nat) (cl : Int × List Detection) : LogEntry :=
  { frame := fi
    group_id := cl.1
    member_count := cl.2.length
    member_ids := sortNat (cl.2.filterMap (·.tracker_id))
    dwell_time_frames := 0
    saved_frame_path := .snapshot fi cl.1 }

/-- One iteration of `for group_id, group_members in
grouped_detections.items()`: create the group record if the key is new,
then, once per 30 frames, write the continuation row and store it as
`'last_log'`. -/
def stepGroup (fi : Nat) (acc : Acc) (cl : Int × List Detection) : Acc :=
  let acc1 : Acc :=
    match lookupGroup acc.active cl.1 with
    | some _ => acc
    | none =>
      { active := acc.active ++ [(cl.1, ⟨fi, fi, [], none⟩)]
        rows := acc.rows
        created := acc.created ++ [(cl.1, fi)] }
  if fi % 30 = 0 then
    { active := setLastLog acc1.active cl.1 (snapshotEntry fi cl)
      rows := acc1.rows ++ [snapshotEntry fi cl]
      created := acc1.created }
  else acc1

/-- The termination row written for a disappeared group: fields backfilled
from `'last_log'` (`count 0` / empty ids when absent),
`dwell_time_frames = frame_index - start_frame`. -/
def emitDisappeared (fi : Nat) (p : Int × GroupData) : LogEntry :=
  { frame := fi
    group_id := p.1
    member_count := (p.2.last_log.map (·.member_count)).getD 0
    member_ids := (p.2.last_log.map (·.member_ids)).getD []
    dwell_time_frames := (fi : Int) - (p.2.start_frame : Int)
    saved_frame_path := .disappeared }

/-- `process_single_frame` restricted to the group-lifecycle state: the
cluster loop, then the `disappeared_groups` sweep (emit one termination
row per group whose key matched no cluster this frame, and delete it). -/
def processFrame (C : Clusterer) (active : Active) (fi : Nat) (dets : List Detection) : Acc :=
  let grouped := clustersOf C dets
  let acc := grouped.foldl (stepGroup fi) ⟨active, [], []⟩
  let labels := grouped.map (·.1)
  { active := acc.active.filter (fun p => labels.contains p.1)
    rows := acc.rows ++ (acc.active.filter (fun p => !(labels.contains p.1))).map (emitDisappeared fi)
    created := acc.created }

/-- The frame loop of `process_video_and_yield_frames`, starting at frame
index `fi`: successive `process_single_frame` calls, concatenating rows
and creations in emission order. -/
def runFrames (C : Clusterer) : Nat → Active → List (List Detection) → Acc
  | _, active, [] => ⟨active, [], []⟩
  | fi, active, dets :: rest =>
    let fr := processFrame C active fi dets
    let r := runFrames C (fi + 1) fr.active rest
    ⟨r.active, fr.rows ++ r.rows, fr.created ++ r.created⟩

/-- The end-of-stream row of `_log_final_dwell_times`: `frame = T`,
`dwell_time_frames = T - start_frame`, `marker = "video_end"`, with
member fields backfilled from `'last_log'`. -/
def emitVideoEnd (T : Nat) (p : Int × GroupData) : LogEntry :=
  { frame := T
    group_id := p.1
    member_count := (p.2.last_log.map (·.member_count)).getD 0
    member_ids := (p.2.last_log.map (·.member_ids)).getD []
    dwell_time_frames := (T : Int) - (p.2.start_frame : Int)
    saved_frame_path := .video_end }

/-- `frame_index / total_frames`, the progress value yielded with each
frame; `none` models Python's `ZeroDivisionError` when the capture
reports a total frame count of `0`. -/
def progressVal (fi T : Nat) : Option ℚ :=
  if T = 0 then none else some ((fi : ℚ) / (T : ℚ))

/-- The observable result of one full driver call. -/
structure RunResult where
  active : Active
  rows : List LogEntry
  created : List (Int × Nat)
  progress : List (Option ℚ)
deriving DecidableEq

/-- `process_video_and_yield_frames`: `T` is the total frame count read
from the capture's metadata, `frames` the per-frame detection lists
actually decoded before `cap.read()` fails; the loop runs over `frames`,
then `_log_final_dwell_times T` appends the end-of-stream rows. -/
def runVideo (C : Clusterer) (T : Nat) (frames : List (List Detection)) : RunResult :=
  let r := runFrames C 0 [] frames
  { active := r.active
    rows := r.rows ++ r.active.map (emitVideoEnd T)
    created := r.created
    progress := (List.range frames.length).map (fun i => progressVal i T) }

/-- A row closing a group's lifetime: termination or end-of-stream. -/
def LogEntry.isClosing (e : LogEntry) : Bool :=
  match e.saved_frame_path with
  | .disappeared => true
  | .video_end => true
  | .snapshot _ _ => false

/-- An end-of-stream row. -/
def LogEntry.isVideoEnd (e : LogEntry) : Bool :=
  match e.saved_frame_path with
  | .video_end => true
  | _ => false

/-- A continuation (periodic snapshot) row. -/
def LogEntry.isSnapshot (e : LogEntry) : Bool :=
  match e.saved_frame_path with
  | .snapshot _ _ => true
  | _ => false

/-- Number of closing rows written for group key `g`. -/
def countClosing (g : Int) (rows : List LogEntry) : Nat :=
  rows.countP (fun e => e.isClosing && e.group_id == g)

/-- Number of end-of-stream rows written for group key `g`. -/
def countVideoEnd (g : Int) (rows : List LogEntry) : Nat :=
  rows.countP (fun e => e.isVideoEnd && e.group_id == g)

/-- Number of creation events recorded for group key `g`. -/
def countCreated (g : Int) (cs : List (Int × Nat)) : Nat :=
  cs.countP (fun c => c.1 == g)

/-- Number of entries of the active table with key `g`. -/
def activeCount (g : Int) (a : Active) : Nat :=
  a.countP (fun p => p.1 == g)

/-- The keys of the active table. -/
def keysOf (a : Active) : List Int := a.map (·.1)

/-- The fold over the frame's clusters, shared by the equations below. -/
def frameFold (C : Clusterer) (active : Active) (fi : Nat) (dets : List Detection) : Acc :=
  (clustersOf C dets).foldl (stepGroup fi) ⟨active, [], []⟩

/-- Modelled from the spec: the behaviour of the density-based clusterer
(`sklearn.cluster.DBSCAN(eps=75, min_samples=3)`, an external library not
part of this repository) on a frame whose anchor points are all mutually
within `eps` of each other and number at least `min_samples`: every point
is then a core point of a single cluster, labelled `0`.  Used only to
instantiate concrete runs whose frames are of exactly that shape. -/
def coincidentClusterer : Clusterer := fun ps => ps.map (fun _ => (0 : Int))

/-- Sample coincident detections used in concrete runs. -/
def dA : Detection := ⟨(0, 0), some 1⟩

/-- Sample coincident detection with tracker id 2. -/
def dB : Detection := ⟨(0, 0), some 2⟩

/-- Sample coincident detection with tracker id 3. -/
def dC : Detection := ⟨(0, 0), some 3⟩

/-- Sample coincident detection whose tracker id is absent. -/
def dX : Detection := ⟨(0, 0), none⟩

/-- A second batch of coincident detections, tracker id 5. -/
def dP : Detection := ⟨(1, 1), some 5⟩

/-- A second batch of coincident detections, tracker id 7. -/
def dQ : Detection := ⟨(1, 1), some 7⟩

/-- A second batch of coincident detections, tracker id absent. -/
def dR : Detection := ⟨(1, 1), none⟩

/-! ### Counting lemmas

The central bookkeeping identity: closing rows written so far, plus the
group's presence in the active table, balance the creation events. -/

theorem activeCount_setLastLog (g : Int) (a : Active) (k : Int) (e : LogEntry) :
    activeCount g (setLastLog a k e) = activeCount g a := by
  induction a with
  | nil => rfl
  | cons p rest ih =>
    obtain ⟨k', d⟩ := p
    simp only [activeCount] at ih ⊢
    by_cases h : k' = k <;>
      simp [setLastLog, List.countP_cons, h, ih]

theorem countClosing_nil (g : Int) : countClosing g [] = 0 := rfl

theorem countVideoEnd_nil (g : Int) : countVideoEnd g [] = 0 := rfl

theorem countCreated_nil (g : Int) : countCreated g [] = 0 := rfl

theorem countClosing_snapshot_singleton (g : Int) (fi : Nat) (cl : Int × List Detection) :
    countClosing g [snapshotEntry fi cl] = 0 := by
  simp [countClosing, snapshotEntry, LogEntry.isClosing]

theorem countVideoEnd_snapshot_singleton (g : Int) (fi : Nat) (cl : Int × List Detection) :
    countVideoEnd g [snapshotEntry fi cl] = 0 := by
  simp [countVideoEnd, snapshotEntry, LogEntry.isVideoEnd]

theorem activeCount_singleton (g k : Int) (d : GroupData) :
    activeCount g [(k, d)] = if k = g then 1 else 0 := by
  simp [activeCount, List.countP_cons, beq_iff_eq]

theorem countCreated_singleton (g k : Int) (fi : Nat) :
    countCreated g [(k, fi)] = if k = g then 1 else 0 := by
  simp [countCreated, List.countP_cons, beq_iff_eq]

theorem isClosing_snapshotEntry (fi : Nat) (cl : Int × List Detection) :
    (snapshotEntry fi cl).isClosing = false := rfl

theorem countClosing_append (g : Int) (r₁ r₂ : List LogEntry) :
    countClosing g (r₁ ++ r₂) = countClosing g r₁ + countClosing g r₂ :=
  List.countP_append _ _ _

theorem countVideoEnd_append (g : Int) (r₁ r₂ : List LogEntry) :
    countVideoEnd g (r₁ ++ r₂) = countVideoEnd g r₁ + countVideoEnd g r₂ :=
  List.countP_append _ _ _

theorem countCreated_append (g : Int) (c₁ c₂ : List (Int × Nat)) :
    countCreated g (c₁ ++ c₂) = countCreated g c₁ + countCreated g c₂ :=
  List.countP_append _ _ _

theorem activeCount_append (g : Int) (a₁ a₂ : Active) :
    activeCount g (a₁ ++ a₂) = activeCount g a₁ + activeCount g a₂ :=
  List.countP_append _ _ _

theorem countClosing_map_disappeared (g : Int) (fi : Nat) (l : Active) :
    countClosing g (l.map (emitDisappeared fi)) = activeCount g l := by
  induction l with
  | nil => rfl
  | cons p rest ih =>
    simp [countClosing, activeCount, List.countP_cons, emitDisappeared,
      LogEntry.isClosing] at *
    omega

theorem countVideoEnd_map_disappeared (g : Int) (fi : Nat) (l : Active) :
    countVideoEnd g (l.map (emitDisappeared fi)) = 0 := by
  induction l with
  | nil => rfl
  | cons p rest ih =>
    simp only [countVideoEnd] at ih ⊢
    simp [List.countP_cons, emitDisappeared, LogEntry.isVideoEnd, ih]

theorem countClosing_map_videoEnd (g : Int) (T : Nat) (l : Active) :
    countClosing g (l.map (emitVideoEnd T)) = activeCount g l := by
  induction l with
  | nil => rfl
  | cons p rest ih =>
    simp [countClosing, activeCount, List.countP_cons, emitVideoEnd,
      LogEntry.isClosing] at *
    omega

theorem countVideoEnd_map_videoEnd (g : Int) (T : Nat) (l : Active) :
    countVideoEnd g (l.map (emitVideoEnd T)) = activeCount g l := by
  induction l with
  | nil => rfl
  | cons p rest ih =>
    simp [countVideoEnd, activeCount, List.countP_cons, emitVideoEnd,
      LogEntry.isVideoEnd] at *
    omega

theorem activeCount_filter_partition (g : Int) (q : Int × GroupData → Bool) (l : Active) :
    activeCount g (l.filter q) + activeCount g (l.filter (fun p => !(q p))) =
      activeCount g l := by
  induction l with
  | nil => rfl
  | cons p rest ih =>
    by_cases h : q p = true <;>
      simp [activeCount, List.countP_cons, List.filter_cons, h] at * <;> omega

theorem stepGroup_counts (g : Int) (fi : Nat) (acc : Acc) (cl : Int × List Detection) :
    countClosing g (stepGroup fi acc cl).rows = countClosing g acc.rows ∧
    countVideoEnd g (stepGroup fi acc cl).rows = countVideoEnd g acc.rows ∧
    activeCount g (stepGroup fi acc cl).active + countCreated g acc.created =
      activeCount g acc.active + countCreated g (stepGroup fi acc cl).created := by
  unfold stepGroup
  cases hl : lookupGroup acc.active cl.1 with
  | some d =>
    by_cases h30 : fi % 30 = 0
    · simp only [hl, h30, if_true]
      refine ⟨?_, ?_, ?_⟩
      · rw [countClosing_append, countClosing_snapshot_singleton]
        omega
      · rw [countVideoEnd_append, countVideoEnd_snapshot_singleton]
        omega
      · rw [activeCount_setLastLog]
    · simp only [hl, h30, if_false]
      exact ⟨trivial, trivial, trivial⟩
  | none =>
    by_cases h30 : fi % 30 = 0
    · simp only [hl, h30, if_true]
      refine ⟨?_, ?_, ?_⟩
      · rw [countClosing_append, countClosing_snapshot_singleton]
        omega
      · rw [countVideoEnd_append, countVideoEnd_snapshot_singleton]
        omega
      · rw [activeCount_setLastLog, activeCount_append, activeCount_singleton,
          countCreated_append, countCreated_singleton]
        omega
    · simp only [hl, h30, if_false]
      refine ⟨trivial, trivial, ?_⟩
      rw [activeCount_append, activeCount_singleton, countCreated_append,
        countCreated_singleton]
      omega

theorem foldGroups_counts (g : Int) (fi : Nat) (l : List (Int × List Detection)) :
    ∀ acc : Acc,
      countClosing g ((l.foldl (stepGroup fi) acc)).rows = countClosing g acc.rows ∧
      countVideoEnd g ((l.foldl (stepGroup fi) acc)).rows = countVideoEnd g acc.rows ∧
      activeCount g ((l.foldl (stepGroup fi) acc)).active + countCreated g acc.created =
        activeCount g acc.active + countCreated g ((l.foldl (stepGroup fi) acc)).created := by
  induction l with
  | nil => intro acc; exact ⟨rfl, rfl, rfl⟩
  | cons cl rest ih =>
    intro acc
    obtain ⟨h1, h2, h3⟩ := stepGroup_counts g fi acc cl
    obtain ⟨i1, i2, i3⟩ := ih (stepGroup fi acc cl)
    refine ⟨by simp [List.foldl_cons, i1, h1], by simp [List.foldl_cons, i2, h2], ?_⟩
    simp only [List.foldl_cons]
    omega

theorem processFrame_active_eq (C : Clusterer) (active : Active) (fi : Nat)
    (dets : List Detection) :
    (processFrame C active fi dets).active =
      (frameFold C active fi dets).active.filter
        (fun p => ((clustersOf C dets).map (·.1)).contains p.1) := rfl

theorem processFrame_rows_eq (C : Clusterer) (active : Active) (fi : Nat)
    (dets : List Detection) :
    (processFrame C active fi dets).rows =
      (frameFold C active fi dets).rows ++
        ((frameFold C active fi dets).active.filter
          (fun p => !(((clustersOf C dets).map (·.1)).contains p.1))).map
          (emitDisappeared fi) := rfl

theorem processFrame_created_eq (C : Clusterer) (active : Active) (fi : Nat)
    (dets : List Detection) :
    (processFrame C active fi dets).created = (frameFold C active fi dets).created := rfl

theorem processFrame_counts (g : Int) (C : Clusterer) (active : Active) (fi : Nat)
    (dets : List Detection) :
    countClosing g (processFrame C active fi dets).rows +
        activeCount g (processFrame C active fi dets).active =
      activeCount g active + countCreated g (processFrame C active fi dets).created ∧
    countVideoEnd g (processFrame C active fi dets).rows = 0 := by
  obtain ⟨h1, h2, h3⟩ := foldGroups_counts g fi (clustersOf C dets) ⟨active, [], []⟩
  have hf : (clustersOf C dets).foldl (stepGroup fi) ⟨active, [], []⟩ =
      frameFold C active fi dets := rfl
  rw [hf] at h1 h2 h3
  have hpart := activeCount_filter_partition g
    (fun p => ((clustersOf C dets).map (·.1)).contains p.1)
    (frameFold C active fi dets).active
  rw [show ((⟨active, [], []⟩ : Acc)).rows = [] from rfl, countClosing_nil] at h1
  rw [show ((⟨active, [], []⟩ : Acc)).rows = [] from rfl, countVideoEnd_nil] at h2
  rw [show ((⟨active, [], []⟩ : Acc)).created = [] from rfl, countCreated_nil,
    show ((⟨active, [], []⟩ : Acc)).active = active from rfl] at h3
  constructor
  · rw [processFrame_rows_eq, processFrame_active_eq, processFrame_created_eq,
      countClosing_append, countClosing_map_disappeared]
    show countClosing g (frameFold C active fi dets).rows + _ + _ = _
    rw [h1]
    omega
  · rw [processFrame_rows_eq, countVideoEnd_append, countVideoEnd_map_disappeared]
    show countVideoEnd g (frameFold C active fi dets).rows + 0 = 0
    rw [h2]

theorem runFrames_counts (g : Int) (C : Clusterer) :
    ∀ (frames : List (List Detection)) (fi : Nat) (active : Active),
      countClosing g (runFrames C fi active frames).rows +
          activeCount g (runFrames C fi active frames).active =
        activeCount g active + countCreated g (runFrames C fi active frames).created ∧
      countVideoEnd g (runFrames C fi active frames).rows = 0 := by
  intro frames
  induction frames with
  | nil => intro fi active; simp [runFrames, countClosing, countVideoEnd, countCreated]
  | cons dets rest ih =>
    intro fi active
    obtain ⟨h1, h2⟩ := processFrame_counts g C active fi dets
    obtain ⟨i1, i2⟩ := ih (fi + 1) (processFrame C active fi dets).active
    constructor
    · simp only [runFrames, countClosing_append, countCreated_append]
      omega
    · simp only [runFrames, countVideoEnd_append]
      omega

/-! ### Key uniqueness of the active table -/

theorem keysOf_append (a b : Active) : keysOf (a ++ b) = keysOf a ++ keysOf b :=
  List.map_append _ _ _

theorem keysOf_setLastLog (a : Active) (k : Int) (e : LogEntry) :
    keysOf (setLastLog a k e) = keysOf a := by
  induction a with
  | nil => rfl
  | cons p rest ih =>
    obtain ⟨k', d⟩ := p
    simp only [keysOf] at ih ⊢
    by_cases h : k' = k <;> simp [setLastLog, h, ih]

theorem lookupGroup_eq_none_iff (a : Active) (g : Int) :
    lookupGroup a g = none ↔ g ∉ keysOf a := by
  induction a with
  | nil => simp [lookupGroup, keysOf]
  | cons p rest ih =>
    obtain ⟨k, d⟩ := p
    by_cases h : k = g
    · simp [lookupGroup, keysOf, h]
    · simp [lookupGroup, keysOf, h, ih]
      tauto

theorem mem_keys_of_lookup_some (a : Active) (g : Int) (d : GroupData)
    (h : lookupGroup a g = some d) : g ∈ keysOf a := by
  by_contra hc
  rw [← lookupGroup_eq_none_iff] at hc
  rw [h] at hc
  cases hc

theorem keysOf_singleton (k : Int) (d : GroupData) : keysOf [(k, d)] = [k] := rfl

theorem stepGroup_keys (fi : Nat) (acc : Acc) (cl : Int × List Detection) :
    keysOf (stepGroup fi acc cl).active = keysOf acc.active ∨
    (keysOf (stepGroup fi acc cl).active = keysOf acc.active ++ [cl.1] ∧
      lookupGroup acc.active cl.1 = none) := by
  unfold stepGroup
  cases hl : lookupGroup acc.active cl.1 with
  | some d =>
    left
    by_cases h30 : fi % 30 = 0 <;> simp only [hl, h30, if_true, if_false, keysOf_setLastLog]
  | none =>
    right
    refine ⟨?_, rfl⟩
    by_cases h30 : fi % 30 = 0 <;>
      simp only [hl, h30, if_true, if_false, keysOf_setLastLog, keysOf_append,
        keysOf_singleton]

theorem stepGroup_key_mem (fi : Nat) (acc : Acc) (cl : Int × List Detection) :
    cl.1 ∈ keysOf (stepGroup fi acc cl).active := by
  unfold stepGroup
  cases hs : lookupGroup acc.active cl.1 with
  | some d =>
    by_cases h30 : fi % 30 = 0 <;>
      simp only [hs, h30, if_true, if_false, keysOf_setLastLog] <;>
      exact mem_keys_of_lookup_some _ _ _ hs
  | none =>
    by_cases h30 : fi % 30 = 0 <;>
      simp only [hs, h30, if_true, if_false, keysOf_setLastLog, keysOf_append,
        keysOf_singleton] <;>
      simp

theorem stepGroup_keys_mono (fi : Nat) (acc : Acc) (cl : Int × List Detection)
    (k : Int) (hk : k ∈ keysOf acc.active) :
    k ∈ keysOf (stepGroup fi acc cl).active := by
  rcases stepGroup_keys fi acc cl with h | ⟨h, _⟩ <;> rw [h] <;> simp [hk]

theorem stepGroup_keys_subset (fi : Nat) (acc : Acc) (cl : Int × List Detection)
    (k : Int) (hk : k ∈ keysOf (stepGroup fi acc cl).active) :
    k ∈ keysOf acc.active ∨ k = cl.1 := by
  rcases stepGroup_keys fi acc cl with h | ⟨h, _⟩ <;> rw [h] at hk
  · exact Or.inl hk
  · simpa using hk

theorem stepGroup_keys_nodup (fi : Nat) (acc : Acc) (cl : Int × List Detection)
    (h : (keysOf acc.active).Nodup) :
    (keysOf (stepGroup fi acc cl).active).Nodup := by
  rcases stepGroup_keys fi acc cl with hk | ⟨hk, hl⟩ <;> rw [hk]
  · exact h
  · rw [lookupGroup_eq_none_iff] at hl
    simp [List.nodup_append, h, hl]

theorem foldGroups_keys_mono (fi : Nat) (l : List (Int × List Detection)) :
    ∀ (acc : Acc) (k : Int), k ∈ keysOf acc.active →
      k ∈ keysOf ((l.foldl (stepGroup fi) acc)).active := by
  induction l with
  | nil => intro acc k hk; exact hk
  | cons cl rest ih =>
    intro acc k hk
    exact ih (stepGroup fi acc cl) k (stepGroup_keys_mono fi acc cl k hk)

theorem foldGroups_key_mem (fi : Nat) (l : List (Int × List Detection)) :
    ∀ (acc : Acc) (cl : Int × List Detection), cl ∈ l →
      cl.1 ∈ keysOf ((l.foldl (stepGroup fi) acc)).active := by
  induction l with
  | nil => intro acc cl hc; cases hc
  | cons cl0 rest ih =>
    intro acc cl hc
    rcases List.mem_cons.1 hc with rfl | hmem
    · exact foldGroups_keys_mono fi rest (stepGroup fi acc cl) cl.1
        (stepGroup_key_mem fi acc cl)
    · exact ih (stepGroup fi acc cl0) cl hmem

theorem foldGroups_keys_subset (fi : Nat) (l : List (Int × List Detection)) :
    ∀ (acc : Acc) (k : Int), k ∈ keysOf ((l.foldl (stepGroup fi) acc)).active →
      k ∈ keysOf acc.active ∨ k ∈ l.map (·.1) := by
  induction l with
  | nil => intro acc k hk; exact Or.inl hk
  | cons cl rest ih =>
    intro acc k hk
    rcases ih (stepGroup fi acc cl) k hk with h | h
    · rcases stepGroup_keys_subset fi acc cl k h with h' | h'
      · exact Or.inl h'
      · right; simp [h']
    · right; simp [h]

theorem foldGroups_keys_nodup (fi : Nat) (l : List (Int × List Detection)) :
    ∀ acc : Acc, (keysOf acc.active).Nodup →
      (keysOf ((l.foldl (stepGroup fi) acc)).active).Nodup := by
  induction l with
  | nil => intro acc h; exact h
  | cons cl rest ih =>
    intro acc h
    exact ih (stepGroup fi acc cl) (stepGroup_keys_nodup fi acc cl h)

theorem keysOf_filter_sublist (a : Active) (q : Int × GroupData → Bool) :
    (keysOf (a.filter q)).Sublist (keysOf a) := by
  unfold keysOf
  exact (List.filter_sublist a).map _

theorem processFrame_keys_nodup (C : Clusterer) (active : Active) (fi : Nat)
    (dets : List Detection) (h : (keysOf active).Nodup) :
    (keysOf (processFrame C active fi dets).active).Nodup := by
  rw [processFrame_active_eq]
  exact ((keysOf_filter_sublist _ _).nodup)
    (foldGroups_keys_nodup fi (clustersOf C dets) ⟨active, [], []⟩ h)

theorem runFrames_keys_nodup (C : Clusterer) :
    ∀ (frames : List (List Detection)) (fi : Nat) (active : Active),
      (keysOf active).Nodup → (keysOf (runFrames C fi active frames).active).Nodup := by
  intro frames
  induction frames with
  | nil => intro fi active h; exact h
  | cons dets rest ih =>
    intro fi active h
    exact ih (fi + 1) (processFrame C active fi dets).active
      (processFrame_keys_nodup C active fi dets h)

theorem activeCount_eq_zero_of_not_mem (g : Int) (a : Active) (h : g ∉ keysOf a) :
    activeCount g a = 0 := by
  induction a with
  | nil => rfl
  | cons p rest ih =>
    simp only [keysOf, List.map_cons, List.mem_cons, not_or] at h
    simp only [activeCount, List.countP_cons] at ih ⊢
    have : (p.1 == g) = false := by
      simp [beq_iff_eq]
      intro hc
      exact h.1 (by simpa [keysOf] using hc.symm)
    rw [this]
    simp [ih (by simpa [keysOf] using h.2)]

theorem activeCount_eq_one_of_nodup (g : Int) (a : Active)
    (hnd : (keysOf a).Nodup) (hg : g ∈ keysOf a) : activeCount g a = 1 := by
  induction a with
  | nil => cases hg
  | cons p rest ih =>
    simp only [keysOf, List.map_cons, List.nodup_cons] at hnd
    simp only [keysOf, List.map_cons, List.mem_cons] at hg
    simp only [activeCount, List.countP_cons] at ih ⊢
    rcases hg with rfl | hg
    · have hz := activeCount_eq_zero_of_not_mem p.1 rest hnd.1
      simp only [activeCount] at hz
      simp [hz]
    · have hne : (p.1 == g) = false := by
        simp [beq_iff_eq]
        intro hc
        rw [hc] at hnd
        exact hnd.1 hg
      rw [hne]
      simp [ih hnd.2 hg]

/-! ### C1 and C5 -/

/-- C1: over a run processed to completion, every group ever created
receives exactly one closing row (termination or end-of-stream): for
every group key the number of closing rows in the final log equals the
number of creation events, so no created group gets zero or two closing
rows, and a key never created gets none. -/
theorem c1_exactly_one_closing (C : Clusterer) (T : Nat)
    (frames : List (List Detection)) (g : Int) :
    countClosing g (runVideo C T frames).rows =
      countCreated g (runVideo C T frames).created := by
  obtain ⟨h1, h2⟩ := runFrames_counts g C frames 0 []
  have hrows : (runVideo C T frames).rows =
      (runFrames C 0 [] frames).rows ++
        (runFrames C 0 [] frames).active.map (emitVideoEnd T) := rfl
  have hcreated : (runVideo C T frames).created = (runFrames C 0 [] frames).created := rfl
  rw [hrows, hcreated, countClosing_append, countClosing_map_videoEnd]
  have hz : activeCount g ([] : Active) = 0 := rfl
  rw [hz] at h1
  omega

/-- C5: whatever prefix of the stream is actually decoded (the input may
end or be cut at any frame), once the driver's yielded sequence is
exhausted the finalization has run: every group still active after the
last processed frame has exactly one end-of-stream row in the final log. -/
theorem c5_finalization_runs (C : Clusterer) (T : Nat)
    (frames : List (List Detection)) :
    ∀ g ∈ keysOf (runVideo C T frames).active,
      countVideoEnd g (runVideo C T frames).rows = 1 := by
  intro g hg
  have h2 := (runFrames_counts g C frames 0 []).2
  have hrows : (runVideo C T frames).rows =
      (runFrames C 0 [] frames).rows ++
        (runFrames C 0 [] frames).active.map (emitVideoEnd T) := rfl
  have hact : (runVideo C T frames).active = (runFrames C 0 [] frames).active := rfl
  rw [hact] at hg
  rw [hrows, countVideoEnd_append, h2, countVideoEnd_map_videoEnd]
  have hnd := runFrames_keys_nodup C frames 0 [] (by simp [keysOf])
  have := activeCount_eq_one_of_nodup g _ hnd hg
  omega

/-- Concrete instance discharging the hypotheses of
`c5_finalization_runs`: a single-frame run with one surviving group. -/
theorem c5_finalization_runs_witness :
    countVideoEnd 0 (runVideo coincidentClusterer 5 [[dA, dB, dC]]).rows = 1 :=
  c5_finalization_runs coincidentClusterer 5 [[dA, dB, dC]] 0 (by decide)

/-! ### C8: the store after a frame holds exactly the matched keys -/

theorem mem_keysOf_iff (a : Active) (g : Int) :
    g ∈ keysOf a ↔ ∃ p, p ∈ a ∧ p.1 = g := by
  unfold keysOf
  simp [List.mem_map]

theorem contains_int_iff (l : List Int) (g : Int) : l.contains g = true ↔ g ∈ l := by
  induction l with
  | nil => simp
  | cons x rest ih =>
    simp [List.contains_cons, ih, beq_iff_eq]

/-- C8: after `process_single_frame` completes, a group key is present in
the active-group store iff it was matched to (or created for) a cluster of
that frame.  Since a group that fails to match is finalized (its
termination row written) and removed within the same frame, the
"not yet finalized after disappearing" arm of the claimed disjunction is
always empty once the frame is fully processed, and the invariant reduces
to this equivalence, which every per-frame update preserves. -/
theorem c8_active_iff_matched (C : Clusterer) (active : Active) (fi : Nat)
    (dets : List Detection) (g : Int) :
    g ∈ keysOf (processFrame C active fi dets).active ↔
      g ∈ (clustersOf C dets).map (·.1) := by
  rw [processFrame_active_eq]
  constructor
  · intro hg
    rcases (mem_keysOf_iff _ _).1 hg with ⟨p, hp, rfl⟩
    exact (contains_int_iff _ _).1 (List.mem_filter.1 hp).2
  · intro hg
    rcases List.mem_map.1 hg with ⟨cl, hcl, rfl⟩
    have hmem := foldGroups_key_mem fi (clustersOf C dets) ⟨active, [], []⟩ cl hcl
    have hf : (clustersOf C dets).foldl (stepGroup fi) ⟨active, [], []⟩ =
        frameFold C active fi dets := rfl
    rw [hf] at hmem
    rcases (mem_keysOf_iff _ _).1 hmem with ⟨p, hp, hpk⟩
    refine (mem_keysOf_iff _ _).2 ⟨p, List.mem_filter.2 ⟨hp, ?_⟩, hpk⟩
    rw [hpk] at *
    exact (contains_int_iff _ _).2 hg

/-! ### Provenance of start frames: every closing row's dwell time is
anchored at a recorded creation event -/

theorem runFrames_nil (C : Clusterer) (fi : Nat) (active : Active) :
    runFrames C fi active [] = ⟨active, [], []⟩ := rfl

theorem runFrames_cons (C : Clusterer) (fi : Nat) (active : Active)
    (dets : List Detection) (rest : List (List Detection)) :
    runFrames C fi active (dets :: rest) =
      ⟨(runFrames C (fi + 1) (processFrame C active fi dets).active rest).active,
       (processFrame C active fi dets).rows ++
         (runFrames C (fi + 1) (processFrame C active fi dets).active rest).rows,
       (processFrame C active fi dets).created ++
         (runFrames C (fi + 1) (processFrame C active fi dets).active rest).created⟩ := rfl

theorem mem_setLastLog (a : Active) (k : Int) (e : LogEntry) (p : Int × GroupData)
    (hp : p ∈ setLastLog a k e) :
    ∃ q ∈ a, q.1 = p.1 ∧ q.2.start_frame = p.2.start_frame := by
  induction a with
  | nil => cases hp
  | cons r rest ih =>
    obtain ⟨k', d⟩ := r
    by_cases h : k' = k
    · simp only [setLastLog, if_pos h] at hp
      rcases List.mem_cons.1 hp with rfl | hmem
      · exact ⟨(k', d), List.mem_cons_self _ _, rfl, rfl⟩
      · exact ⟨p, List.mem_cons_of_mem _ hmem, rfl, rfl⟩
    · simp only [setLastLog, if_neg h] at hp
      rcases List.mem_cons.1 hp with rfl | hmem
      · exact ⟨(k', d), List.mem_cons_self _ _, rfl, rfl⟩
      · rcases ih hmem with ⟨q, hq, hk, hs⟩
        exact ⟨q, List.mem_cons_of_mem _ hq, hk, hs⟩

theorem stepGroup_created_mono (fi : Nat) (acc : Acc) (cl : Int × List Detection)
    (c : Int × Nat) (hc : c ∈ acc.created) : c ∈ (stepGroup fi acc cl).created := by
  unfold stepGroup
  cases hl : lookupGroup acc.active cl.1 <;> by_cases h30 : fi % 30 = 0 <;>
    simp only [hl, h30, if_true, if_false] <;> simp [hc]

theorem stepGroup_active_prov (fi : Nat) (acc : Acc) (cl : Int × List Detection)
    (p : Int × GroupData) (hp : p ∈ (stepGroup fi acc cl).active) :
    (∃ q ∈ acc.active, q.1 = p.1 ∧ q.2.start_frame = p.2.start_frame) ∨
      ((p.1, p.2.start_frame) ∈ (stepGroup fi acc cl).created ∧ p.2.start_frame = fi) := by
  unfold stepGroup at hp ⊢
  cases hl : lookupGroup acc.active cl.1 with
  | some d =>
    by_cases h30 : fi % 30 = 0
    · simp only [hl, h30, if_true] at hp ⊢
      exact Or.inl (mem_setLastLog _ _ _ _ hp)
    · simp only [hl, h30, if_false] at hp ⊢
      exact Or.inl ⟨p, hp, rfl, rfl⟩
  | none =>
    by_cases h30 : fi % 30 = 0
    · simp only [hl, h30, if_true] at hp ⊢
      rcases mem_setLastLog _ _ _ _ hp with ⟨q, hq, hk, hs⟩
      rcases List.mem_append.1 hq with hq' | hq'
      · exact Or.inl ⟨q, hq', hk, hs⟩
      · right
        have hqe : q = (cl.1, ⟨fi, fi, [], none⟩) := by simpa using hq'
        subst hqe
        simp only at hk hs
        constructor
        · apply List.mem_append.2
          right
          simp [← hk, ← hs]
        · omega
    · simp only [hl, h30, if_false] at hp ⊢
      rcases List.mem_append.1 hp with hq' | hq'
      · exact Or.inl ⟨p, hq', rfl, rfl⟩
      · right
        have hpe : p = (cl.1, ⟨fi, fi, [], none⟩) := by simpa using hq'
        subst hpe
        simp

theorem foldGroups_created_mono (fi : Nat) (l : List (Int × List Detection)) :
    ∀ (acc : Acc) (c : Int × Nat), c ∈ acc.created →
      c ∈ ((l.foldl (stepGroup fi) acc)).created := by
  induction l with
  | nil => intro acc c hc; exact hc
  | cons cl rest ih =>
    intro acc c hc
    exact ih (stepGroup fi acc cl) c (stepGroup_created_mono fi acc cl c hc)

theorem foldGroups_active_prov (fi : Nat) (l : List (Int × List Detection)) :
    ∀ (acc : Acc) (p : Int × GroupData), p ∈ ((l.foldl (stepGroup fi) acc)).active →
      (∃ q ∈ acc.active, q.1 = p.1 ∧ q.2.start_frame = p.2.start_frame) ∨
        ((p.1, p.2.start_frame) ∈ ((l.foldl (stepGroup fi) acc)).created ∧
          p.2.start_frame = fi) := by
  induction l with
  | nil => intro acc p hp; exact Or.inl ⟨p, hp, rfl, rfl⟩
  | cons cl rest ih =>
    intro acc p hp
    rcases ih (stepGroup fi acc cl) p hp with ⟨q, hq, hk, hs⟩ | ⟨hcr, hfi⟩
    · rcases stepGroup_active_prov fi acc cl q hq with ⟨q', hq', hk', hs'⟩ | ⟨hcr, hfi⟩
      · exact Or.inl ⟨q', hq', hk'.trans hk, hs'.trans hs⟩
      · right
        rw [hk, hs] at hcr
        exact ⟨foldGroups_created_mono fi rest (stepGroup fi acc cl) _ hcr, by omega⟩
    · exact Or.inr ⟨hcr, hfi⟩

theorem processFrame_active_prov (C : Clusterer) (active : Active) (fi : Nat)
    (dets : List Detection) (p : Int × GroupData)
    (hp : p ∈ (processFrame C active fi dets).active) :
    (∃ q ∈ active, q.1 = p.1 ∧ q.2.start_frame = p.2.start_frame) ∨
      ((p.1, p.2.start_frame) ∈ (processFrame C active fi dets).created ∧
        p.2.start_frame = fi) := by
  rw [processFrame_active_eq] at hp
  have hp' : p ∈ (frameFold C active fi dets).active := (List.mem_filter.1 hp).1
  have hf : (clustersOf C dets).foldl (stepGroup fi) ⟨active, [], []⟩ =
      frameFold C active fi dets := rfl
  have := foldGroups_active_prov fi (clustersOf C dets) ⟨active, [], []⟩ p (by rw [hf]; exact hp')
  rw [hf] at this
  rw [processFrame_created_eq]
  exact this

theorem processFrame_start_le (C : Clusterer) (active : Active) (fi : Nat)
    (dets : List Detection) (h : ∀ q ∈ active, q.2.start_frame ≤ fi) :
    ∀ p ∈ (processFrame C active fi dets).active, p.2.start_frame ≤ fi := by
  intro p hp
  rcases processFrame_active_prov C active fi dets p hp with ⟨q, hq, _, hs⟩ | ⟨_, hs⟩
  · rw [← hs]; exact h q hq
  · omega

theorem foldGroups_rows (fi : Nat) (l : List (Int × List Detection)) :
    ∀ (acc : Acc) (e : LogEntry), e ∈ ((l.foldl (stepGroup fi) acc)).rows →
      e ∈ acc.rows ∨ (fi % 30 = 0 ∧ ∃ cl ∈ l, e = snapshotEntry fi cl) := by
  induction l with
  | nil => intro acc e he; exact Or.inl he
  | cons cl rest ih =>
    intro acc e he
    rcases ih (stepGroup fi acc cl) e he with he' | ⟨h30, cl', hcl', hee⟩
    · unfold stepGroup at he'
      cases hl : lookupGroup acc.active cl.1 <;> by_cases h30 : fi % 30 = 0 <;>
        simp only [hl, h30, if_true, if_false] at he'
      · rcases List.mem_append.1 he' with he'' | he''
        · exact Or.inl he''
        · exact Or.inr ⟨h30, cl, List.mem_cons_self _ _, by simpa using he''⟩
      · exact Or.inl he'
      · rcases List.mem_append.1 he' with he'' | he''
        · exact Or.inl he''
        · exact Or.inr ⟨h30, cl, List.mem_cons_self _ _, by simpa using he''⟩
      · exact Or.inl he'
    · exact Or.inr ⟨h30, cl', List.mem_cons_of_mem _ hcl', hee⟩

theorem isClosing_emitDisappeared (fi : Nat) (p : Int × GroupData) :
    (emitDisappeared fi p).isClosing = true := rfl

theorem processFrame_rows_closing (C : Clusterer) (active : Active) (fi : Nat)
    (dets : List Detection) (e : LogEntry)
    (h : ∀ q ∈ active, q.2.start_frame ≤ fi)
    (he : e ∈ (processFrame C active fi dets).rows) (hc : e.isClosing = true) :
    ∃ start : Nat, e.frame = fi ∧ start ≤ fi ∧
      e.dwell_time_frames = (fi : Int) - (start : Int) ∧
      ((e.group_id, start) ∈ (processFrame C active fi dets).created ∨
        ∃ q ∈ active, q.1 = e.group_id ∧ q.2.start_frame = start) := by
  rw [processFrame_rows_eq] at he
  rcases List.mem_append.1 he with he' | he'
  · have hf : (clustersOf C dets).foldl (stepGroup fi) ⟨active, [], []⟩ =
        frameFold C active fi dets := rfl
    rcases foldGroups_rows fi (clustersOf C dets) ⟨active, [], []⟩ e (by rw [hf]; exact he')
      with he'' | ⟨_, cl, _, rfl⟩
    · cases he''
    · rw [isClosing_snapshotEntry] at hc
      cases hc
  · rcases List.mem_map.1 he' with ⟨p, hp, rfl⟩
    have hpa : p ∈ (frameFold C active fi dets).active := (List.mem_filter.1 hp).1
    have hf : (clustersOf C dets).foldl (stepGroup fi) ⟨active, [], []⟩ =
        frameFold C active fi dets := rfl
    have hprov := foldGroups_active_prov fi (clustersOf C dets) ⟨active, [], []⟩ p
      (by rw [hf]; exact hpa)
    rw [hf] at hprov
    refine ⟨p.2.start_frame, rfl, ?_, rfl, ?_⟩
    · rcases hprov with ⟨q, hq, _, hs⟩ | ⟨_, hs⟩
      · rw [← hs]; exact h q hq
      · omega
    · rcases hprov with ⟨q, hq, hk, hs⟩ | ⟨hcr, _⟩
      · exact Or.inr ⟨q, hq, hk, hs⟩
      · rw [processFrame_created_eq]
        exact Or.inl hcr

theorem runFrames_prov (C : Clusterer) :
    ∀ (frames : List (List Detection)) (fi : Nat) (active : Active),
      (∀ q ∈ active, q.2.start_frame ≤ fi) →
      (∀ p ∈ (runFrames C fi active frames).active,
        p.2.start_frame ≤ fi + frames.length ∧
        ((p.1, p.2.start_frame) ∈ (runFrames C fi active frames).created ∨
          ∃ q ∈ active, q.1 = p.1 ∧ q.2.start_frame = p.2.start_frame)) ∧
      (∀ e ∈ (runFrames C fi active frames).rows, e.isClosing = true →
        ∃ start : Nat, start ≤ e.frame ∧
          e.dwell_time_frames = (e.frame : Int) - (start : Int) ∧
          ((e.group_id, start) ∈ (runFrames C fi active frames).created ∨
            ∃ q ∈ active, q.1 = e.group_id ∧ q.2.start_frame = start)) := by
  intro frames
  induction frames with
  | nil =>
    intro fi active h
    rw [runFrames_nil]
    constructor
    · intro p hp
      exact ⟨by simpa using h p hp, Or.inr ⟨p, hp, rfl, rfl⟩⟩
    · intro e he
      cases he
  | cons dets rest ih =>
    intro fi active h
    have hfr1 : ∀ q ∈ (processFrame C active fi dets).active, q.2.start_frame ≤ fi + 1 :=
      fun q hq => Nat.le_succ_of_le (processFrame_start_le C active fi dets h q hq)
    obtain ⟨ihA, ihB⟩ := ih (fi + 1) (processFrame C active fi dets).active hfr1
    rw [runFrames_cons]
    constructor
    · intro p hp
      obtain ⟨hle, hor⟩ := ihA p hp
      refine ⟨by simpa [Nat.add_assoc, Nat.add_comm 1 rest.length] using hle, ?_⟩
      rcases hor with hcr | ⟨q, hq, hk, hs⟩
      · exact Or.inl (List.mem_append.2 (Or.inr hcr))
      · rcases processFrame_active_prov C active fi dets q hq with ⟨q', hq', hk', hs'⟩ | ⟨hcr', _⟩
        · exact Or.inr ⟨q', hq', hk'.trans hk, hs'.trans hs⟩
        · rw [hk, hs] at hcr'
          exact Or.inl (List.mem_append.2 (Or.inl hcr'))
    · intro e he hc
      rcases List.mem_append.1 he with he' | he'
      · obtain ⟨start, hfrm, hle, hdw, hor⟩ :=
          processFrame_rows_closing C active fi dets e h he' hc
        refine ⟨start, by omega, by rw [hfrm]; exact hdw, ?_⟩
        rcases hor with hcr | hq
        · exact Or.inl (List.mem_append.2 (Or.inl hcr))
        · exact Or.inr hq
      · obtain ⟨start, hle, hdw, hor⟩ := ihB e he' hc
        refine ⟨start, hle, hdw, ?_⟩
        rcases hor with hcr | ⟨q, hq, hk, hs⟩
        · exact Or.inl (List.mem_append.2 (Or.inr hcr))
        · rcases processFrame_active_prov C active fi dets q hq with ⟨q', hq', hk', hs'⟩ | ⟨hcr', _⟩
          · exact Or.inr ⟨q', hq', hk'.trans hk, hs'.trans hs⟩
          · rw [hk, hs] at hcr'
            exact Or.inl (List.mem_append.2 (Or.inl hcr'))

/-! ### C2: dwell time of closing rows -/

/-- C2 counterexample: the claim asserts `dwell_time_frames ≥ 0` for every
closing row, but `_log_final_dwell_times` computes `total_frames -
start_frame` with `total_frames` taken from the capture's metadata; when
the metadata undercounts the decoded frames (here: reported total 1,
three frames decoded, group created at frame 2) the end-of-stream row
carries a negative dwell time. -/
theorem c2_counterexample_negative_dwell :
    ∃ e ∈ (runVideo coincidentClusterer 1 [[], [], [dA, dB, dC]]).rows,
      e.isClosing = true ∧ e.dwell_time_frames < 0 := by decide

/-- C2 amended: every closing row's `dwell_time_frames` equals the row's
closing frame minus the start frame recorded at the group's creation;
it is non-negative for every termination row unconditionally, and for
end-of-stream rows provided the reported total frame count is at least
the number of frames actually processed. -/
theorem c2_dwell_amended (C : Clusterer) (T : Nat) (frames : List (List Detection))
    (e : LogEntry) (he : e ∈ (runVideo C T frames).rows) (hc : e.isClosing = true) :
    ∃ start : Nat, (e.group_id, start) ∈ (runVideo C T frames).created ∧
      e.dwell_time_frames = (e.frame : Int) - (start : Int) ∧
      ((e.isVideoEnd = false ∨ frames.length ≤ T) → 0 ≤ e.dwell_time_frames) := by
  obtain ⟨hA, hB⟩ := runFrames_prov C frames 0 [] (by intro q hq; cases hq)
  have hrows : (runVideo C T frames).rows =
      (runFrames C 0 [] frames).rows ++
        (runFrames C 0 [] frames).active.map (emitVideoEnd T) := rfl
  have hcr : (runVideo C T frames).created = (runFrames C 0 [] frames).created := rfl
  rw [hrows] at he
  rw [hcr]
  rcases List.mem_append.1 he with he' | he'
  · obtain ⟨start, hle, hdw, hor⟩ := hB e he' hc
    rcases hor with hcr' | ⟨q, hq, _⟩
    · refine ⟨start, hcr', hdw, fun _ => ?_⟩
      rw [hdw]
      omega
    · cases hq
  · rcases List.mem_map.1 he' with ⟨p, hp, rfl⟩
    obtain ⟨hle, hor⟩ := hA p hp
    rcases hor with hcr' | ⟨q, hq, _⟩
    · refine ⟨p.2.start_frame, hcr', rfl, ?_⟩
      intro hcase
      rcases hcase with hv | hn
      · exact absurd hv (by simp [emitVideoEnd, LogEntry.isVideoEnd])
      · have hs : p.2.start_frame ≤ T := le_trans (by simpa using hle) hn
        show (0 : Int) ≤ (T : Int) - (p.2.start_frame : Int)
        omega
    · cases hq

/-- Concrete instance discharging the hypotheses of `c2_dwell_amended`:
the end-of-stream row of a single-frame run. -/
theorem c2_dwell_amended_witness :
    ∃ start : Nat,
      ((⟨1, 0, 3, [1, 2, 3], 1, Marker.video_end⟩ : LogEntry).group_id, start) ∈
          (runVideo coincidentClusterer 1 [[dA, dB, dC]]).created ∧
      (⟨1, 0, 3, [1, 2, 3], 1, Marker.video_end⟩ : LogEntry).dwell_time_frames =
        ((⟨1, 0, 3, [1, 2, 3], 1, Marker.video_end⟩ : LogEntry).frame : Int) -
          (start : Int) ∧
      ((⟨1, 0, 3, [1, 2, 3], 1, Marker.video_end⟩ : LogEntry).isVideoEnd = false ∨
          ([[dA, dB, dC]] : List (List Detection)).length ≤ 1 →
        0 ≤ (⟨1, 0, 3, [1, 2, 3], 1, Marker.video_end⟩ : LogEntry).dwell_time_frames) :=
  c2_dwell_amended coincidentClusterer 1 [[dA, dB, dC]]
    ⟨1, 0, 3, [1, 2, 3], 1, Marker.video_end⟩ (by decide) (by decide)

/-! ### Lookup lemmas for the matcher (C4) -/

theorem lookupGroup_append (a b : Active) (g : Int) :
    lookupGroup (a ++ b) g =
      match lookupGroup a g with
      | some d => some d
      | none => lookupGroup b g := by
  induction a with
  | nil => rfl
  | cons p rest ih =>
    obtain ⟨k, d⟩ := p
    by_cases h : k = g <;> simp [lookupGroup, h, ih]

theorem lookupGroup_setLastLog (a : Active) (k : Int) (e : LogEntry) (g : Int) :
    lookupGroup (setLastLog a k e) g =
      if k = g then (lookupGroup a g).map (fun d => { d with last_log := some e })
      else lookupGroup a g := by
  induction a with
  | nil => simp [setLastLog, lookupGroup]
  | cons p rest ih =>
    obtain ⟨k', d⟩ := p
    by_cases hk : k' = k
    · subst hk
      by_cases hg : k' = g
      · subst hg
        simp [setLastLog, lookupGroup]
      · simp [setLastLog, lookupGroup, hg]
    · by_cases hg : k' = g
      · subst hg
        have hne : k ≠ k' := fun hc => hk hc.symm
        simp [setLastLog, lookupGroup, hk, hne]
      · simp [setLastLog, lookupGroup, hk, hg, ih]

theorem stepGroup_lookup_some (fi : Nat) (acc : Acc) (cl : Int × List Detection)
    (g : Int) (d : GroupData) (hl : lookupGroup acc.active g = some d) :
    ∃ d', lookupGroup (stepGroup fi acc cl).active g = some d' ∧
      d'.start_frame = d.start_frame ∧ d'.last_seen_frame = d.last_seen_frame ∧
      d'.members = d.members := by
  unfold stepGroup
  cases hcl : lookupGroup acc.active cl.1 with
  | some d0 =>
    by_cases h30 : fi % 30 = 0
    · simp only [hcl, h30, if_true]
      rw [lookupGroup_setLastLog]
      by_cases hg : cl.1 = g
      · refine ⟨{ d with last_log := some (snapshotEntry fi cl) }, ?_, rfl, rfl, rfl⟩
        simp [hg, hl]
      · exact ⟨d, by simp [hg, hl], rfl, rfl, rfl⟩
    · simp only [hcl, h30, if_false]
      exact ⟨d, hl, rfl, rfl, rfl⟩
  | none =>
    by_cases h30 : fi % 30 = 0
    · simp only [hcl, h30, if_true]
      rw [lookupGroup_setLastLog, lookupGroup_append, hl]
      by_cases hg : cl.1 = g
      · exact ⟨{ d with last_log := some (snapshotEntry fi cl) }, by simp [hg], rfl, rfl, rfl⟩
      · exact ⟨d, by simp [hg], rfl, rfl, rfl⟩
    · simp only [hcl, h30, if_false]
      rw [lookupGroup_append, hl]
      exact ⟨d, rfl, rfl, rfl, rfl⟩

theorem stepGroup_lookup_none_other (fi : Nat) (acc : Acc) (cl : Int × List Detection)
    (g : Int) (hl : lookupGroup acc.active g = none) (hne : cl.1 ≠ g) :
    lookupGroup (stepGroup fi acc cl).active g = none := by
  unfold stepGroup
  cases hcl : lookupGroup acc.active cl.1 <;> by_cases h30 : fi % 30 = 0 <;>
    simp only [hcl, h30, if_true, if_false] <;>
    simp [lookupGroup_setLastLog, lookupGroup_append, lookupGroup, hl, hne]

theorem stepGroup_lookup_create (fi : Nat) (acc : Acc) (cl : Int × List Detection)
    (g : Int) (hl : lookupGroup acc.active g = none) (heq : cl.1 = g) :
    ∃ d', lookupGroup (stepGroup fi acc cl).active g = some d' ∧
      d'.start_frame = fi ∧ d'.last_seen_frame = fi ∧ d'.members = [] := by
  have hcl : lookupGroup acc.active cl.1 = none := by rw [heq]; exact hl
  unfold stepGroup
  by_cases h30 : fi % 30 = 0
  · simp only [hcl, h30, if_true]
    refine ⟨⟨fi, fi, [], some (snapshotEntry fi cl)⟩, ?_, rfl, rfl, rfl⟩
    rw [lookupGroup_setLastLog, heq, if_pos rfl, lookupGroup_append, hl]
    simp [lookupGroup]
  · simp only [hcl, h30, if_false]
    refine ⟨⟨fi, fi, [], none⟩, ?_, rfl, rfl, rfl⟩
    rw [lookupGroup_append, hl]
    simp [lookupGroup, heq]

theorem foldGroups_lookup_some (fi : Nat) (l : List (Int × List Detection)) :
    ∀ (acc : Acc) (g : Int) (d : GroupData), lookupGroup acc.active g = some d →
      ∃ d', lookupGroup ((l.foldl (stepGroup fi) acc)).active g = some d' ∧
        d'.start_frame = d.start_frame ∧ d'.last_seen_frame = d.last_seen_frame ∧
        d'.members = d.members := by
  induction l with
  | nil => intro acc g d hl; exact ⟨d, hl, rfl, rfl, rfl⟩
  | cons cl rest ih =>
    intro acc g d hl
    obtain ⟨d1, hl1, h1, h2, h3⟩ := stepGroup_lookup_some fi acc cl g d hl
    obtain ⟨d2, hl2, g1, g2, g3⟩ := ih (stepGroup fi acc cl) g d1 hl1
    exact ⟨d2, hl2, g1.trans h1, g2.trans h2, g3.trans h3⟩

theorem foldGroups_lookup_create (fi : Nat) (l : List (Int × List Detection)) :
    ∀ (acc : Acc) (g : Int), lookupGroup acc.active g = none → g ∈ l.map (·.1) →
      ∃ d', lookupGroup ((l.foldl (stepGroup fi) acc)).active g = some d' ∧
        d'.start_frame = fi ∧ d'.last_seen_frame = fi ∧ d'.members = [] := by
  induction l with
  | nil =>
    intro acc g _ hmem
    exact absurd hmem (by simp)
  | cons cl rest ih =>
    intro acc g hl hmem
    by_cases heq : cl.1 = g
    · obtain ⟨d1, hl1, h1, h2, h3⟩ := stepGroup_lookup_create fi acc cl g hl heq
      obtain ⟨d2, hl2, g1, g2, g3⟩ :=
        foldGroups_lookup_some fi rest (stepGroup fi acc cl) g d1 hl1
      exact ⟨d2, hl2, g1.trans h1, g2.trans h2, g3.trans h3⟩
    · have hl' := stepGroup_lookup_none_other fi acc cl g hl heq
      have hmem' : g ∈ rest.map (·.1) := by
        rcases List.mem_cons.1 (by simpa using hmem : g ∈ cl.1 :: rest.map (·.1))
          with heq' | hmem'
        · exact absurd heq'.symm heq
        · exact hmem'
      exact ih (stepGroup fi acc cl) g hl' hmem'

theorem lookupGroup_filter_contains (a : Active) (labels : List Int) (g : Int)
    (hg : g ∈ labels) :
    lookupGroup (a.filter (fun p => labels.contains p.1)) g = lookupGroup a g := by
  induction a with
  | nil => rfl
  | cons p rest ih =>
    obtain ⟨k, d⟩ := p
    by_cases hk : k = g
    · subst hk
      simp [List.filter_cons, hg, lookupGroup]
    · have ih' : lookupGroup (List.filter (fun p => decide (p.1 ∈ labels)) rest) g =
          lookupGroup rest g := by
        simpa using ih
      by_cases hc : k ∈ labels <;>
        simp [List.filter_cons, hc, lookupGroup, hk, ih']

/-! ### C4 -/

/-- C4 counterexample: the claim states that on a continuation the
matcher updates the group's `last_seen_frame` to the current frame and
its members to the cluster's members; in the code the `if group_id not
in self.active_groups` branch is the only write, so after a group
matches again at frame 1 its `last_seen_frame` is still 0 (its creation
frame) and its `members` field is still empty. -/
theorem c4_counterexample_no_update :
    (lookupGroup (runVideo coincidentClusterer 2 [[dA, dB, dC], [dA, dB, dC]]).active 0).map
        (fun d => (d.last_seen_frame, d.members)) = some (0, []) ∧
      (lookupGroup (runVideo coincidentClusterer 2 [[dA, dB, dC], [dA, dB, dC]]).active 0).map
        (fun d => d.last_seen_frame) ≠ some 1 := by decide

/-- C4 amended: for every cluster key present this frame, if the key
exists in the active-group table the group is treated as a continuation
only in the sense that no new record is created — its `start_frame`,
`last_seen_frame` and `members` fields are left exactly as they were
(only `last_log` may change); if the key is absent, a new group is
created with `start_frame = last_seen_frame = ` current frame and empty
members. -/
theorem c4_match_amended (C : Clusterer) (active : Active) (fi : Nat)
    (dets : List Detection) (g : Int)
    (hg : g ∈ (clustersOf C dets).map (·.1)) :
    (∀ d, lookupGroup active g = some d →
      ∃ d', lookupGroup (processFrame C active fi dets).active g = some d' ∧
        d'.start_frame = d.start_frame ∧ d'.last_seen_frame = d.last_seen_frame ∧
        d'.members = d.members) ∧
    (lookupGroup active g = none →
      ∃ d', lookupGroup (processFrame C active fi dets).active g = some d' ∧
        d'.start_frame = fi ∧ d'.last_seen_frame = fi ∧ d'.members = []) := by
  have hf : (clustersOf C dets).foldl (stepGroup fi) ⟨active, [], []⟩ =
      frameFold C active fi dets := rfl
  constructor
  · intro d hl
    obtain ⟨d', hl', h1, h2, h3⟩ :=
      foldGroups_lookup_some fi (clustersOf C dets) ⟨active, [], []⟩ g d hl
    refine ⟨d', ?_, h1, h2, h3⟩
    rw [processFrame_active_eq, lookupGroup_filter_contains _ _ _ hg, ← hf]
    exact hl'
  · intro hl
    obtain ⟨d', hl', h1, h2, h3⟩ :=
      foldGroups_lookup_create fi (clustersOf C dets) ⟨active, [], []⟩ g hl hg
    refine ⟨d', ?_, h1, h2, h3⟩
    rw [processFrame_active_eq, lookupGroup_filter_contains _ _ _ hg, ← hf]
    exact hl'

/-- Concrete instance discharging the hypotheses of `c4_match_amended`:
creation of a fresh group for cluster key 0 at frame 0. -/
theorem c4_match_amended_witness :
    ∃ d', lookupGroup (processFrame coincidentClusterer [] 0 [dA, dB, dC]).active 0 =
        some d' ∧ d'.start_frame = 0 ∧ d'.last_seen_frame = 0 ∧ d'.members = [] :=
  (c4_match_amended coincidentClusterer [] 0 [dA, dB, dC] 0 (by decide)).2 (by decide)

/-! ### C6: continuation rows only on the snapshot interval -/

theorem isSnapshot_emitDisappeared (fi : Nat) (p : Int × GroupData) :
    (emitDisappeared fi p).isSnapshot = false := rfl

theorem isSnapshot_emitVideoEnd (T : Nat) (p : Int × GroupData) :
    (emitVideoEnd T p).isSnapshot = false := rfl

theorem runFrames_rows_snapshot (C : Clusterer) :
    ∀ (frames : List (List Detection)) (fi : Nat) (active : Active) (e : LogEntry),
      e ∈ (runFrames C fi active frames).rows → e.isSnapshot = true →
      e.frame % 30 = 0 ∧ e.dwell_time_frames = 0 := by
  intro frames
  induction frames with
  | nil =>
    intro fi active e he _
    cases he
  | cons dets rest ih =>
    intro fi active e he hs
    rw [runFrames_cons] at he
    rcases List.mem_append.1 he with he' | he'
    · rw [processFrame_rows_eq] at he'
      rcases List.mem_append.1 he' with he'' | he''
      · have hf : (clustersOf C dets).foldl (stepGroup fi) ⟨active, [], []⟩ =
            frameFold C active fi dets := rfl
        rcases foldGroups_rows fi (clustersOf C dets) ⟨active, [], []⟩ e
            (by rw [hf]; exact he'') with h | ⟨h30, cl, _, rfl⟩
        · cases h
        · exact ⟨h30, rfl⟩
      · rcases List.mem_map.1 he'' with ⟨p, _, rfl⟩
        rw [isSnapshot_emitDisappeared] at hs
        cases hs
    · exact ih (fi + 1) _ e he' hs

/-- C6: every continuation (periodic snapshot) row in the final log is
written at a frame index divisible by the snapshot interval 30, and
carries `dwell_time_frames = 0`. -/
theorem c6_continuation_interval (C : Clusterer) (T : Nat)
    (frames : List (List Detection)) (e : LogEntry)
    (he : e ∈ (runVideo C T frames).rows) (hs : e.isSnapshot = true) :
    e.frame % 30 = 0 ∧ e.dwell_time_frames = 0 := by
  have hrows : (runVideo C T frames).rows =
      (runFrames C 0 [] frames).rows ++
        (runFrames C 0 [] frames).active.map (emitVideoEnd T) := rfl
  rw [hrows] at he
  rcases List.mem_append.1 he with he' | he'
  · exact runFrames_rows_snapshot C frames 0 [] e he' hs
  · rcases List.mem_map.1 he' with ⟨p, _, rfl⟩
    rw [isSnapshot_emitVideoEnd] at hs
    cases hs

/-- Concrete instance discharging the hypotheses of
`c6_continuation_interval`: the frame-0 snapshot row of a one-frame run. -/
theorem c6_continuation_interval_witness :
    (⟨0, 0, 3, [1, 2, 3], 0, Marker.snapshot 0 0⟩ : LogEntry).frame % 30 = 0 ∧
      (⟨0, 0, 3, [1, 2, 3], 0, Marker.snapshot 0 0⟩ : LogEntry).dwell_time_frames = 0 :=
  c6_continuation_interval coincidentClusterer 1 [[dA, dB, dC]]
    ⟨0, 0, 3, [1, 2, 3], 0, Marker.snapshot 0 0⟩ (by decide) (by decide)

/-! ### C7: clustering is skipped below 3 detections -/

theorem filter_contains_nil_eq_nil (l : Active) :
    l.filter (fun p => (([] : List Int)).contains p.1) = [] := by
  induction l with
  | nil => rfl
  | cons p rest ih => simp [List.filter_cons, ih]

theorem filter_not_contains_nil_eq_self (l : Active) :
    l.filter (fun p => !((([] : List Int)).contains p.1)) = l := by
  induction l with
  | nil => rfl
  | cons p rest ih => simp [List.filter_cons, ih]

/-- C7: on a frame with fewer than 3 detections the clusterer is not
invoked: no clusters are produced, no group is created, no continuation
row is written, and every group that was active before the frame receives
its termination row during that same frame (the new active table is
empty, the frame's rows are exactly the termination rows of the
previously active groups). -/
theorem c7_skip_clustering (C : Clusterer) (active : Active) (fi : Nat)
    (dets : List Detection) (h : dets.length < 3) :
    clustersOf C dets = [] ∧
    processFrame C active fi dets = ⟨[], active.map (emitDisappeared fi), []⟩ := by
  have hcl : clustersOf C dets = [] := by
    unfold clustersOf
    rw [if_neg (by omega)]
  refine ⟨hcl, ?_⟩
  have hff : frameFold C active fi dets = ⟨active, [], []⟩ := by
    unfold frameFold
    rw [hcl]
    rfl
  have ha : (processFrame C active fi dets).active = [] := by
    rw [processFrame_active_eq, hff, hcl]
    exact filter_contains_nil_eq_nil active
  have hr : (processFrame C active fi dets).rows = active.map (emitDisappeared fi) := by
    rw [processFrame_rows_eq, hff, hcl]
    show [] ++ (active.filter (fun p => !((([] : List Int)).contains p.1))).map
        (emitDisappeared fi) = _
    rw [List.nil_append, filter_not_contains_nil_eq_self]
  have hc : (processFrame C active fi dets).created = [] := by
    rw [processFrame_created_eq, hff]
  have heta : processFrame C active fi dets =
      ⟨(processFrame C active fi dets).active, (processFrame C active fi dets).rows,
        (processFrame C active fi dets).created⟩ := rfl
  rw [heta, ha, hr, hc]

/-- Concrete instance discharging the hypothesis of `c7_skip_clustering`:
an empty frame terminates the one active group. -/
theorem c7_skip_clustering_witness :
    clustersOf coincidentClusterer ([] : List Detection) = [] ∧
    processFrame coincidentClusterer [(5, (⟨2, 2, [], none⟩ : GroupData))] 7 [] =
      ⟨[], [(5, (⟨2, 2, [], none⟩ : GroupData))].map (emitDisappeared 7), []⟩ :=
  c7_skip_clustering coincidentClusterer [(5, ⟨2, 2, [], none⟩)] 7 [] (by decide)

/-! ### C3: detections without a tracker id still enter clustering -/

/-- C3 counterexample: a detection with no tracker id (`dX`) is not
excluded from clustering — on a 3-detection frame it appears in the
produced cluster's member list (and is therefore counted in
`member_count`), contradicting the claim that it contributes neither to
the clustered point set nor to any cluster's membership. -/
theorem c3_counterexample_noid_clustered :
    dX.tracker_id = none ∧
      ∃ cl ∈ clustersOf coincidentClusterer [dA, dB, dX], dX ∈ cl.2 := by decide

theorem mem_addToGroups_self (gs : List (Int × List Detection)) (l : Int) (d : Detection) :
    ∃ cl ∈ addToGroups gs l d, cl.1 = l ∧ d ∈ cl.2 := by
  induction gs with
  | nil => exact ⟨(l, [d]), List.mem_cons_self _ _, rfl, List.mem_cons_self _ _⟩
  | cons g rest ih =>
    obtain ⟨l0, ds⟩ := g
    by_cases h : l0 = l
    · subst h
      refine ⟨(l0, ds ++ [d]), ?_, rfl, by simp⟩
      simp [addToGroups]
    · rcases ih with ⟨cl, hcl, hl, hd⟩
      refine ⟨cl, ?_, hl, hd⟩
      simp only [addToGroups, if_neg h]
      exact List.mem_cons_of_mem _ hcl

theorem addToGroups_preserve (gs : List (Int × List Detection)) (l : Int) (d : Detection)
    (cl : Int × List Detection) (hcl : cl ∈ gs) :
    ∃ cl' ∈ addToGroups gs l d, cl'.1 = cl.1 ∧ ∀ x ∈ cl.2, x ∈ cl'.2 := by
  induction gs with
  | nil => cases hcl
  | cons g rest ih =>
    obtain ⟨l0, ds⟩ := g
    by_cases h : l0 = l
    · subst h
      rcases List.mem_cons.1 hcl with rfl | hmem
      · exact ⟨(l0, ds ++ [d]), by simp [addToGroups], rfl, fun x hx => by simp [hx]⟩
      · refine ⟨cl, ?_, rfl, fun x hx => hx⟩
        simp only [addToGroups, if_pos rfl]
        exact List.mem_cons_of_mem _ hmem
    · rcases List.mem_cons.1 hcl with rfl | hmem
      · refine ⟨(l0, ds), ?_, rfl, fun x hx => hx⟩
        simp only [addToGroups, if_neg h]
        exact List.mem_cons_self _ _
      · rcases ih hmem with ⟨cl', hcl', hk, hsub⟩
        refine ⟨cl', ?_, hk, hsub⟩
        simp only [addToGroups, if_neg h]
        exact List.mem_cons_of_mem _ hcl'

theorem groupByLabel_fold_mem :
    ∀ (pairs : List (Int × Detection)) (gs : List (Int × List Detection))
      (l : Int) (d : Detection),
      ((∃ cl ∈ gs, cl.1 = l ∧ d ∈ cl.2) ∨ ((l, d) ∈ pairs ∧ l ≠ -1)) →
      ∃ cl ∈ pairs.foldl
          (fun gs ld => if ld.1 = -1 then gs else addToGroups gs ld.1 ld.2) gs,
        cl.1 = l ∧ d ∈ cl.2 := by
  intro pairs
  induction pairs with
  | nil =>
    intro gs l d h
    rcases h with h | ⟨hmem, _⟩
    · exact h
    · cases hmem
  | cons p rest ih =>
    intro gs l d h
    obtain ⟨lp, dp⟩ := p
    simp only [List.foldl_cons]
    rcases h with ⟨cl, hcl, hk, hd⟩ | ⟨hmem, hne⟩
    · by_cases hp : lp = -1
      · simp only [if_pos hp]
        exact ih gs l d (Or.inl ⟨cl, hcl, hk, hd⟩)
      · simp only [if_neg hp]
        rcases addToGroups_preserve gs lp dp cl hcl with ⟨cl', hcl', hk', hsub⟩
        exact ih _ l d (Or.inl ⟨cl', hcl', hk'.trans hk, hsub d hd⟩)
    · rcases List.mem_cons.1 hmem with heq | hmem'
      · injection heq with h1 h2
        subst h1
        subst h2
        simp only [if_neg hne]
        exact ih (addToGroups gs l d) l d (Or.inl (mem_addToGroups_self gs l d))
      · by_cases hp : lp = -1
        · simp only [if_pos hp]
          exact ih gs l d (Or.inr ⟨hmem', hne⟩)
        · simp only [if_neg hp]
          exact ih _ l d (Or.inr ⟨hmem', hne⟩)

theorem zip_getD_mem (ls : List Int) :
    ∀ (ds : List Detection) (i : Nat), i < ls.length → i < ds.length →
      (ls.getD i (-1), ds.getD i default) ∈ ls.zip ds := by
  induction ls with
  | nil =>
    intro ds i h _
    simp at h
  | cons x xs ih =>
    intro ds i hi hd
    cases ds with
    | nil => simp at hd
    | cons y ys =>
      cases i with
      | zero => simp [List.zip_cons_cons]
      | succ n =>
        have hm := ih ys n (by simpa using hi) (by simpa using hd)
        simp only [List.zip_cons_cons, List.getD_cons_succ]
        exact List.mem_cons_of_mem _ hm

/-- C3 amended: a detection is not excluded from clustering for lacking a
tracker id.  The point set handed to the clusterer is the anchors of all
detections, and whenever the clusterer gives position `i` a non-noise
label, the detection at position `i` — tracker id or not — is a member of
the cluster carrying that label.  (Only the `member_ids` column of
continuation rows omits id-less members; the frame is never aborted.) -/
theorem c3_noid_included (C : Clusterer) (dets : List Detection) (i : Nat)
    (h3 : 3 ≤ dets.length) (hlen : (C (pointsOf dets)).length = dets.length)
    (hi : i < dets.length) (hlab : (C (pointsOf dets)).getD i (-1) ≠ -1) :
    ∃ cl ∈ clustersOf C dets, cl.1 = (C (pointsOf dets)).getD i (-1) ∧
      dets.getD i default ∈ cl.2 := by
  unfold clustersOf
  rw [if_pos h3]
  unfold groupByLabel
  apply groupByLabel_fold_mem
  right
  refine ⟨?_, hlab⟩
  exact zip_getD_mem (C (pointsOf dets)) dets i (by omega) hi

/-- Concrete instance discharging the hypotheses of `c3_noid_included`:
the id-less detection `dX` at position 2 lands in cluster 0. -/
theorem c3_noid_included_witness :
    ∃ cl ∈ clustersOf coincidentClusterer [dA, dB, dX],
      cl.1 = (coincidentClusterer (pointsOf [dA, dB, dX])).getD 2 (-1) ∧
        ([dA, dB, dX] : List Detection).getD 2 default ∈ cl.2 :=
  c3_noid_included coincidentClusterer [dA, dB, dX] 2 (by decide) (by decide)
    (by decide) (by decide)

/-! ### C9: progress values -/

/-- C9 counterexample: the driver computes `frame_index / total_frames`
with `total_frames` read from the capture's metadata and no guard; for a
source that yields one frame while reporting a total frame count of `0`
(legal for cv2 streams), the progress fraction of the yielded pair is
undefined — in Python, a `ZeroDivisionError` — so the fraction
computation does fail for such a source. -/
theorem c9_counterexample_progress_fails :
    (runVideo coincidentClusterer 0 [[]]).progress = [none] := by decide

theorem progress_getD (T n i : Nat) (hi : i < n) :
    (((List.range n).map (fun j => progressVal j T))).getD i none = progressVal i T := by
  rw [List.getD_eq_getElem?_getD, List.getElem?_map, List.getElem?_range hi]
  rfl

/-- C9 amended: provided the reported total frame count `T` is positive
and at least the number of frames actually yielded, the driver yields one
pair per frame, each progress fraction is defined and lies in `[0, 1)`,
and the fractions increase strictly along the yielded sequence.  The code
itself does not guarantee `T ≠ 0` (see the counterexample) nor `T ≥` the
number of decoded frames. -/
theorem c9_progress_amended (C : Clusterer) (T : Nat) (frames : List (List Detection))
    (hT : 0 < T) (hn : frames.length ≤ T) :
    (runVideo C T frames).progress.length = frames.length ∧
    (∀ i, i < frames.length →
      (runVideo C T frames).progress.getD i none = some ((i : ℚ) / (T : ℚ)) ∧
      0 ≤ (i : ℚ) / (T : ℚ) ∧ (i : ℚ) / (T : ℚ) < 1) ∧
    (∀ i j, i < j → j < frames.length →
      (i : ℚ) / (T : ℚ) < (j : ℚ) / (T : ℚ)) := by
  have hprog : (runVideo C T frames).progress =
      (List.range frames.length).map (fun j => progressVal j T) := rfl
  have hT' : (0 : ℚ) < (T : ℚ) := by exact_mod_cast hT
  refine ⟨by rw [hprog]; simp, ?_, ?_⟩
  · intro i hi
    refine ⟨?_, ?_, ?_⟩
    · rw [hprog, progress_getD T frames.length i hi]
      unfold progressVal
      rw [if_neg (by omega)]
    · exact div_nonneg (Nat.cast_nonneg i) (le_of_lt hT')
    · rw [div_lt_one hT']
      exact_mod_cast lt_of_lt_of_le hi hn
  · intro i j hij hj
    have hijq : (i : ℚ) < (j : ℚ) := by exact_mod_cast hij
    exact (div_lt_div_iff_of_pos_right hT').mpr hijq

/-- Concrete instance discharging the hypotheses of
`c9_progress_amended`: a two-frame source reporting two frames. -/
theorem c9_progress_amended_witness :
    (runVideo coincidentClusterer 2 [[], []]).progress.getD 1 none =
        some (((1 : Nat) : ℚ) / ((2 : Nat) : ℚ)) ∧
      ((0 : Nat) : ℚ) / ((2 : Nat) : ℚ) < ((1 : Nat) : ℚ) / ((2 : Nat) : ℚ) :=
  ⟨((c9_progress_amended coincidentClusterer 2 [[], []] (by decide) (by decide)).2.1 1
      (by decide)).1,
    (c9_progress_amended coincidentClusterer 2 [[], []] (by decide) (by decide)).2.2 0 1
      (by decide) (by decide)⟩

/-! ### C10: member_count counts all cluster members, member_ids only
those with a tracker id -/

/-- C10: every continuation row reflects a cluster of its frame exactly:
`member_count` is the total number of detections in the matched cluster
while `member_ids` is the sorted list of tracker ids of only those
members that have one; and on a concrete input containing an id-less
detection a row has `member_count` strictly greater than the number of
listed ids. -/
theorem c10_member_count_vs_ids :
    (∀ (C : Clusterer) (active : Active) (fi : Nat) (dets : List Detection) (e : LogEntry),
      e ∈ (processFrame C active fi dets).rows → e.isSnapshot = true →
      ∃ cl ∈ clustersOf C dets, e.group_id = cl.1 ∧ e.member_count = cl.2.length ∧
        e.member_ids = sortNat (cl.2.filterMap (·.tracker_id))) ∧
    ∃ e ∈ (runVideo coincidentClusterer 1 [[dP, dQ, dR]]).rows,
      e.member_ids.length < e.member_count := by
  constructor
  · intro C active fi dets e he hs
    rw [processFrame_rows_eq] at he
    rcases List.mem_append.1 he with he' | he'
    · have hf : (clustersOf C dets).foldl (stepGroup fi) ⟨active, [], []⟩ =
          frameFold C active fi dets := rfl
      rcases foldGroups_rows fi (clustersOf C dets) ⟨active, [], []⟩ e
          (by rw [hf]; exact he') with hh | ⟨_, cl, hcl, rfl⟩
      · cases hh
      · exact ⟨cl, hcl, rfl, rfl, rfl⟩
    · rcases List.mem_map.1 he' with ⟨p, _, rfl⟩
      rw [isSnapshot_emitDisappeared] at hs
      cases hs
  · decide

/-- Concrete instance discharging the hypotheses of the universal part of
`c10_member_count_vs_ids`: the frame-0 snapshot row of the `[dP, dQ, dR]`
frame names its cluster. -/
theorem c10_member_count_vs_ids_witness :
    ∃ cl ∈ clustersOf coincidentClusterer [dP, dQ, dR],
      (⟨0, 0, 3, [5, 7], 0, Marker.snapshot 0 0⟩ : LogEntry).group_id = cl.1 ∧
      (⟨0, 0, 3, [5, 7], 0, Marker.snapshot 0 0⟩ : LogEntry).member_count = cl.2.length ∧
      (⟨0, 0, 3, [5, 7], 0, Marker.snapshot 0 0⟩ : LogEntry).member_ids =
        sortNat (cl.2.filterMap (·.tracker_id)) :=
  c10_member_count_vs_ids.1 coincidentClusterer [] 0 [dP, dQ, dR]
    ⟨0, 0, 3, [5, 7], 0, Marker.snapshot 0 0⟩ (by decide) (by decide)

end GroupAnalysis
